import Mathlib

/-!
Verification of the schema-resolution core of OpenApi2Java.

The definitions below are a shallow embedding of the functions in
`generate_java_classes.py` (type resolution, dependency closure, inheritance
and oneOf analysis) and of the dependency walk in `generate_json_examples.py`.
Schema nodes are modelled as records of the optional keys the code reads
(`$ref`, `type`, `properties`, `items`, `allOf`, `oneOf`, `anyOf`, `format`);
a parsed document is an association list of named schemas, mirroring the
`components.schemas` dictionary.  Recursive walks that the Python code
performs with a call stack are embedded as fuel-indexed functions returning
`Option` (with `none` meaning the recursion budget ran out), so that
divergence of the source on cyclic documents is expressible and every
definition evaluates by kernel reduction on concrete documents.
-/

/-- A schema node: the optional keys of the YAML dictionary that the
generator reads.  `none` models the key being absent. -/
inductive Schema where
  | node (ref : Option String) (typ : Option String)
      (properties : Option (List (String × Schema)))
      (items : Option Schema)
      (allOf : Option (List Schema))
      (oneOf : Option (List Schema))
      (anyOf : Option (List Schema))
      (format : Option String) : Schema

/-- The `$ref` key. -/
def Schema.ref : Schema → Option String
  | .node r _ _ _ _ _ _ _ => r

/-- The `type` key. -/
def Schema.typ : Schema → Option String
  | .node _ t _ _ _ _ _ _ => t

/-- The `properties` key. -/
def Schema.properties : Schema → Option (List (String × Schema))
  | .node _ _ p _ _ _ _ _ => p

/-- The `items` key. -/
def Schema.items : Schema → Option Schema
  | .node _ _ _ i _ _ _ _ => i

/-- The `allOf` key. -/
def Schema.allOf : Schema → Option (List Schema)
  | .node _ _ _ _ a _ _ _ => a

/-- The `oneOf` key. -/
def Schema.oneOf : Schema → Option (List Schema)
  | .node _ _ _ _ _ o _ _ => o

/-- The `anyOf` key. -/
def Schema.anyOf : Schema → Option (List Schema)
  | .node _ _ _ _ _ _ a _ => a

/-- The `format` key. -/
def Schema.format : Schema → Option String
  | .node _ _ _ _ _ _ _ f => f

/-- The empty dictionary `{}` (every key absent). -/
def Schema.emptyNode : Schema :=
  .node none none none none none none none none

/-- Python truthiness of a schema dictionary: `not schema` holds exactly when
the dictionary has no keys. -/
def Schema.isEmptyNode (s : Schema) : Bool :=
  s.ref.isNone && s.typ.isNone && s.properties.isNone && s.items.isNone &&
    s.allOf.isNone && s.oneOf.isNone && s.anyOf.isNone && s.format.isNone

/-- A parsed document's `components.schemas` map, as an association list. -/
def Schemas := List (String × Schema)

/-- Dictionary lookup `schemas[name]` / the `name in schemas` test. -/
def lookupSchema (schemas : Schemas) (name : String) : Option Schema :=
  match List.find? (fun kv => kv.1 == name) schemas with
  | some kv => some kv.2
  | none => none

/-- The names (keys) of the document. -/
def schemaNames (schemas : Schemas) : List String :=
  List.map Prod.fst schemas

/-- `set.add`: insert a name into the visited set. -/
def insertName (n : String) (v : List String) : List String :=
  if n ∈ v then v else n :: v

/-- `dict[k] = val` on an association list: replace in place if the key
exists, append otherwise (Python dict update semantics for one key). -/
def setKey : List (String × Schema) → String → Schema → List (String × Schema)
  | [], k, val => [(k, val)]
  | (k', v') :: rest, k, val =>
      if k' == k then (k', val) :: rest else (k', v') :: setKey rest k val

/-- `dict.update(other)`: fold `setKey` over the entries of `other`. -/
def updateAssoc (acc other : List (String × Schema)) : List (String × Schema) :=
  List.foldl (fun a kv => setKey a kv.1 kv.2) acc other

/-- Concatenation of the images of a list-valued function (the flattening
the Python code does by issuing recursive calls inside nested loops). -/
def flatMapL (f : α → List β) : List α → List β
  | [] => []
  | a :: as => f a ++ flatMapL f as

/-- Thread a visited set through a sequence of recursive calls, stopping at
the first call that runs out of fuel. -/
def threadVisit (f : String → List String → Option (List String)) :
    List String → List String → Option (List String)
  | [], v => some v
  | nm :: rest, v =>
      match f nm v with
      | none => none
      | some v' => threadVisit f rest v'

/-- First non-`none` image, mirroring a Python `for` loop that `return`s
from inside its body. -/
def firstSome : List α → (α → Option β) → Option β
  | [], _ => none
  | a :: as, f =>
      match f a with
      | some b => some b
      | none => firstSome as f

/-- `ref.split('/')[-1]`: the text after the last slash. -/
def refLast (r : String) : String :=
  String.mk (List.reverse (List.takeWhile (fun c => c ≠ '/') r.toList.reverse))

/-- Python `str.capitalize()`: first character upper-cased, the rest
lower-cased. -/
def capitalizePy : List Char → List Char
  | [] => []
  | c :: rest => c.toUpper :: List.map Char.toLower rest

/-- A separator character of the regex `[_\s-]+` used by the name mangler. -/
def isSepChar (c : Char) : Bool :=
  c == '_' || c == '-' || c == ' ' || c == '\t' || c == '\n' ||
    c == '\x0d' || c == '\x0b' || c == '\x0c'

/-- `re.split(r'[_\s-]+', s)`: split on maximal separator runs, keeping the
(possibly empty) fragments at both ends. -/
def splitSepRuns (l : List Char) : List (List Char) :=
  (List.foldr
    (fun c (p : Bool × List (List Char)) =>
      if isSepChar c then
        if p.1 then (true, p.2) else (true, [] :: p.2)
      else
        match p.2 with
        | t :: ts => (false, (c :: t) :: ts)
        | [] => (false, [[c]]))
    (false, [[]]) l).2

/-- `to_java_class_name` from `generate_java_classes.py`: PascalCase kept,
camelCase capitalized at index 0, anything else mangled to `_` and
title-cased token-wise. -/
def to_java_class_name (name : String) : String :=
  let cs := name.toList
  match cs with
  | [] =>
      String.mk (List.foldr (fun w acc => capitalizePy w ++ acc) []
        (List.filter (fun w => !List.isEmpty w) (splitSepRuns [])))
  | c0 :: rest =>
      if c0.isUpper && List.all rest Char.isAlphanum then name
      else if c0.isLower && List.all rest Char.isAlphanum then
        String.mk (c0.toUpper :: rest)
      else
        let cs2 := List.map (fun c => if c.isAlphanum || c == '_' then c else '_') cs
        String.mk (List.foldr (fun w acc => capitalizePy w ++ acc) []
          (List.filter (fun w => !List.isEmpty w) (splitSepRuns cs2)))

/-- The guard of the bare-array-wrapper skip: `type == 'array'` with neither
`properties` nor `allOf`. -/
def isBareArrayWrapper (s : Schema) : Bool :=
  s.typ == some "array" && s.properties.isNone && s.allOf.isNone

/-- `get_java_type_from_openapi` (lines 394-478), fuel-indexed: `none` means
the recursion budget ran out, `some t` is the Java type text the Python
function returns. -/
def get_java_type_from_openapi :
    Nat → Schema → Schemas → List String → Option String → Option String
  | 0, _, _, _, _ => none
  | Nat.succ n, schema, schemas, visited, fieldName =>
    if schema.isEmptyNode then some "Object"
    else
      match schema.ref with
      | some r =>
        let refName := refLast r
        if refName ∈ visited then some (to_java_class_name refName)
        else
          let visited' := insertName refName visited
          match lookupSchema schemas refName with
          | some refSchema =>
            if isBareArrayWrapper refSchema then
              Option.map (fun t => "List<" ++ t ++ ">")
                (get_java_type_from_openapi n (refSchema.items.getD Schema.emptyNode)
                  schemas visited' none)
            else some (to_java_class_name refName)
          | none => some "Object"
      | none =>
      match schema.allOf with
      | some allOfL =>
        let hasInlineProps := List.any allOfL (fun it => it.properties.isSome)
        let hasRef := List.any allOfL (fun it => it.ref.isSome)
        let fieldTruthy := match fieldName with
          | some f => f ≠ ""
          | none => False
        if hasInlineProps && hasRef && fieldTruthy then
          some (to_java_class_name (fieldName.getD ""))
        else
          match List.head? allOfL with
          | some first =>
            if first.ref.isSome then
              get_java_type_from_openapi n first schemas visited fieldName
            else
              match List.find? (fun it => it.ref.isSome) allOfL with
              | some it => get_java_type_from_openapi n it schemas visited fieldName
              | none => some "Object"
          | none =>
            match List.find? (fun it => it.ref.isSome) allOfL with
            | some it => get_java_type_from_openapi n it schemas visited fieldName
            | none => some "Object"
      | none =>
      match schema.oneOf with
      | some oneOfL =>
        (match List.head? oneOfL with
        | some first =>
          if first.ref.isSome then
            get_java_type_from_openapi n first schemas visited none
          else some "Object"
        | none => some "Object")
      | none =>
      match schema.typ.getD "object" with
      | "string" =>
        (match schema.format.getD "" with
        | "date-time" => some "LocalDateTime"
        | "date" => some "LocalDate"
        | _ => some "String")
      | "integer" => some "Long"
      | "number" => some "Double"
      | "boolean" => some "Boolean"
      | "array" =>
        Option.map (fun t => "List<" ++ t ++ ">")
          (get_java_type_from_openapi n (schema.items.getD Schema.emptyNode)
            schemas visited none)
      | "object" =>
        (match fieldName with
        | some f =>
          if schema.properties.isSome && f ≠ "" then some (to_java_class_name f)
          else some "Object"
        | none => some "Object")
      | _ => some "Object"

/-- The `[refLast r]` contribution of an optional `$ref` key. -/
def optRefTarget : Option String → List String
  | some r => [refLast r]
  | none => []

/-- The `$ref` targets of the entries of an `allOf` list (the bases the
closure walk recurses into). -/
def allOfRefNames (s : Schema) : List String :=
  match s.allOf with
  | some l => flatMapL (fun it => optRefTarget it.ref) l
  | none => []

/-- The merged property dictionary of a schema: direct `properties` updated
with the `properties` of every `allOf` element, as built at lines 501-514. -/
def mergedProps (s : Schema) : List (String × Schema) :=
  let p0 := s.properties.getD []
  match s.allOf with
  | some l =>
      List.foldl
        (fun acc it =>
          match it.properties with
          | some ps => updateAssoc acc ps
          | none => acc) p0 l
  | none => p0

/-- The schema names one property makes the closure walk recurse into, in
the order of lines 517-557: its `$ref`; its `allOf` refs and the refs of
inline properties inside `allOf`; its `oneOf` variant refs; its array-item
ref; and the refs (direct and under `allOf`) of an inline object's
properties. -/
def propClosureTargets (p : Schema) : List String :=
  optRefTarget p.ref
  ++ (match p.allOf with
      | some l =>
          flatMapL (fun it =>
            optRefTarget it.ref
            ++ (match it.properties with
                | some sps => flatMapL (fun kv => optRefTarget kv.2.ref) sps
                | none => [])) l
      | none => [])
  ++ (match p.oneOf with
      | some l => flatMapL (fun it => optRefTarget it.ref) l
      | none => [])
  ++ (if p.typ == some "array" then
        match p.items with
        | some it => optRefTarget it.ref
        | none => []
      else [])
  ++ (if p.typ == some "object" then
        match p.properties with
        | some sps =>
            flatMapL (fun kv =>
              optRefTarget kv.2.ref
              ++ (match kv.2.allOf with
                  | some l => flatMapL (fun it => optRefTarget it.ref) l
                  | none => [])) sps
        | none => []
      else [])

/-- All names a visit of `name` recurses into: the `allOf` base refs, then
the targets of every merged property. -/
def directTargets (schemas : Schemas) (name : String) : List String :=
  match lookupSchema schemas name with
  | none => []
  | some sc => allOfRefNames sc ++ flatMapL (fun kv => propClosureTargets kv.2) (mergedProps sc)

/-- `get_all_schema_dependencies` (lines 480-559), fuel-indexed: the
transitive dependency closure of a root schema name.  `none` means the
recursion budget ran out (the Python function would still be recursing). -/
def get_all_schema_dependencies :
    Nat → String → Schemas → List String → Option (List String)
  | 0, _, _, _ => none
  | Nat.succ n, schemaName, schemas, visited =>
    if schemaName ∈ visited then some visited
    else
      match lookupSchema schemas schemaName with
      | none => some visited
      | some schema =>
        if isBareArrayWrapper schema then
          match schema.items with
          | some items =>
            (match items.ref with
            | some r => get_all_schema_dependencies n (refLast r) schemas visited
            | none => some visited)
          | none => some visited
        else
          threadVisit (fun nm v => get_all_schema_dependencies n nm schemas v)
            (allOfRefNames schema ++ flatMapL (fun kv => propClosureTargets kv.2) (mergedProps schema))
            (insertName schemaName visited)

/-- `get_base_class` (lines 561-572): the inheritance base derived from the
first `allOf` element. -/
def get_base_class (name : String) (schemas : Schemas) : Option String :=
  match lookupSchema schemas name with
  | none => none
  | some sc =>
    match sc.allOf with
    | some (first :: _) => Option.map refLast first.ref
    | _ => none

/-- `get_schema_properties(name, schemas, include_inherited=False)`
(lines 574-600): direct properties updated with the inline properties of
`allOf` elements; an `allOf` element carrying `$ref` is skipped whole by
the `continue` at lines 591-592, so its inline properties (if it also has
some) are not merged either. -/
def get_schema_properties_own (name : String) (schemas : Schemas) :
    List (String × Schema) :=
  match lookupSchema schemas name with
  | none => []
  | some sc =>
    let props := sc.properties.getD []
    match sc.allOf with
    | some l =>
        List.foldl
          (fun acc it =>
            if it.ref.isSome then acc
            else
              match it.properties with
              | some ps => updateAssoc acc ps
              | none => acc) props l
    | none => props

/-- `get_schema_properties(name, schemas, include_inherited=True)`
(lines 574-600), fuel-indexed: for each `allOf` element, first merge the
recursively computed properties of its `$ref` target, then its inline
properties. -/
def get_schema_properties_all :
    Nat → String → Schemas → Option (List (String × Schema))
  | 0, _, _ => none
  | Nat.succ n, name, schemas =>
    match lookupSchema schemas name with
    | none => some []
    | some sc =>
      let props := sc.properties.getD []
      match sc.allOf with
      | none => some props
      | some l =>
        List.foldl
          (fun (accO : Option (List (String × Schema))) it =>
            match accO with
            | none => none
            | some acc =>
              let acc1O : Option (List (String × Schema)) :=
                match it.ref with
                | some r =>
                    Option.map (fun inh => updateAssoc acc inh)
                      (get_schema_properties_all n (refLast r) schemas)
                | none => some acc
              match acc1O with
              | none => none
              | some acc1 =>
                match it.properties with
                | some ps => some (updateAssoc acc1 ps)
                | none => some acc1)
          (some props) l

/-- `has_oneof_field` (lines 602-608): the first own property carrying a
`oneOf` key, with its variant list. -/
def has_oneof_field (name : String) (schemas : Schemas) :
    Option (String × List Schema) :=
  firstSome (get_schema_properties_own name schemas)
    (fun kv =>
      match kv.2.oneOf with
      | some l => some (kv.1, l)
      | none => none)

/-- `find_oneof_base_class` (lines 610-624): scan every schema's own
properties for a `oneOf` containing a `$ref` to `name`; the synthetic base
is the class-cased property name of the first hit. -/
def find_oneof_base_class (name : String) (schemas : Schemas) : Option String :=
  firstSome schemas
    (fun parent =>
      firstSome (get_schema_properties_own parent.1 schemas)
        (fun kv =>
          match kv.2.oneOf with
          | some l =>
              if List.any l (fun o =>
                  match o.ref with
                  | some r => refLast r == name
                  | none => false)
              then some (to_java_class_name kv.1)
              else none
          | none => none))

/-- Python truthiness of an optional string: the empty string counts as
absent. -/
def truthyStr : Option String → Option String
  | some s => if s = "" then none else some s
  | none => none

/-- The `base_class_name` computed at lines 645-653: class-cased `allOf`
base when truthy, else the oneOf-derived synthetic base when truthy. -/
def resolved_base_class_name (name : String) (schemas : Schemas) : Option String :=
  match truthyStr (Option.map to_java_class_name (truthyStr (get_base_class name schemas))) with
  | some b => some b
  | none => truthyStr (find_oneof_base_class name schemas)

/-- The property dictionary rendered as a class's own fields
(lines 655-661): all (fully inherited) properties, minus the keys of the
base's fully inherited properties when a truthy base class name exists. -/
def own_rendered_props (fuel : Nat) (name : String) (schemas : Schemas) :
    Option (List (String × Schema)) :=
  match get_schema_properties_all fuel name schemas with
  | none => none
  | some allProps =>
    match resolved_base_class_name name schemas with
    | none => some allProps
    | some _ =>
      let basePropsO :=
        match get_base_class name schemas with
        | some b => get_schema_properties_all fuel b schemas
        | none => some []
      match basePropsO with
      | none => none
      | some bp =>
          some (List.filter
            (fun kv => !(List.any bp (fun kv2 => kv2.1 == kv.1))) allProps)

/-- The generic parameter text built at lines 663-669 when the class has a
(truthy-named, non-empty) oneOf field. -/
def generic_param_of (name : String) (schemas : Schemas) : Option String :=
  match has_oneof_field name schemas with
  | some (f, tys) =>
      if f ≠ "" && !List.isEmpty tys then
        some ("T" ++ to_java_class_name f ++ " extends " ++ to_java_class_name f)
      else none
  | none => none

/-- The synthetic oneOf base-class name used when emitting the abstract
base (line 1177): the class-cased field name. -/
def oneof_base_name (name : String) (schemas : Schemas) : Option String :=
  match has_oneof_field name schemas with
  | some (f, _) => some (to_java_class_name f)
  | none => none

/-- The Java type rendered for one property at lines 696-709: the generic
parameter `T<FieldName>` for the detected oneOf field, ordinary resolution
(with a fresh visited set) for every other property. -/
def field_java_type (fuel : Nat) (name : String) (schemas : Schemas)
    (propName : String) (propSchema : Schema) : Option String :=
  match has_oneof_field name schemas with
  | some (f, _) =>
      if f ≠ "" && propName == f then some ("T" ++ to_java_class_name propName)
      else get_java_type_from_openapi fuel propSchema schemas [] (some propName)
  | none => get_java_type_from_openapi fuel propSchema schemas [] (some propName)

/-- `extract_refs_from_properties` (generate_json_examples.py, lines 87-99),
flattened to the list of schema names it recurses into. -/
def extractRefsTargets (props : List (String × Schema)) : List String :=
  flatMapL
    (fun kv =>
      let p := kv.2
      optRefTarget p.ref
      ++ (if p.typ == some "array" then
            match p.items with
            | some it => optRefTarget it.ref
            | none => []
          else [])
      ++ (match p.oneOf with
          | some l => flatMapL (fun s => optRefTarget s.ref) l
          | none => [])
      ++ (match p.anyOf with
          | some l => flatMapL (fun s => optRefTarget s.ref) l
          | none => [])
      ++ (match p.allOf with
          | some l => flatMapL (fun s => optRefTarget s.ref) l
          | none => [])) props

/-- The names one visit of `get_schema_dependencies`
(generate_json_examples.py, lines 54-85) recurses into. -/
def exampleTargets (schema : Schema) : List String :=
  (match schema.allOf with
   | some l =>
       flatMapL (fun sub =>
         match sub.ref with
         | some r => [refLast r]
         | none =>
           match sub.properties with
           | some ps => extractRefsTargets ps
           | none => []) l
   | none => [])
  ++ (match schema.oneOf with
      | some l => flatMapL (fun s => optRefTarget s.ref) l
      | none => [])
  ++ (match schema.anyOf with
      | some l => flatMapL (fun s => optRefTarget s.ref) l
      | none => [])
  ++ (match schema.properties with
      | some ps => extractRefsTargets ps
      | none => [])

/-- `get_schema_dependencies` (generate_json_examples.py, lines 54-85),
fuel-indexed: the dependency walk of the example generator, which visits
`anyOf` variants and has no array-wrapper skip. -/
def get_schema_dependencies_examples :
    Nat → String → Schemas → List String → Option (List String)
  | 0, _, _, _ => none
  | Nat.succ n, name, schemas, visited =>
    if name ∈ visited then some visited
    else
      match lookupSchema schemas name with
      | none => some visited
      | some schema =>
          threadVisit (fun nm v => get_schema_dependencies_examples n nm schemas v)
            (exampleTargets schema) (insertName name visited)

/-- Fixture: a `{type: string}` node. -/
def strSchema : Schema := .node none (some "string") none none none none none none

/-- Fixture: a `{type: integer}` node. -/
def intSchema : Schema := .node none (some "integer") none none none none none none

/-- Fixture: a bare `{$ref: r}` node. -/
def refSchema (r : String) : Schema :=
  .node (some r) none none none none none none none

/-- Fixture: a `{type: object, properties: ps}` node. -/
def objSchema (ps : List (String × Schema)) : Schema :=
  .node none (some "object") (some ps) none none none none none

/-- Fixture: the Pet / Dog document of the spec's Scenario 1, with Dog
re-declaring Pet's `name` field at a different type. -/
def petDoc : Schemas :=
  [("Pet", objSchema [("name", strSchema)]),
   ("Dog", .node none none none none
      (some [refSchema "#/components/schemas/Pet",
             .node none (some "object")
               (some [("name", intSchema), ("breed", strSchema)])
               none none none none none])
      none none none)]

/-- Fixture: the cyclic `Node` document of the spec's cycle-safety test:
`Node.children` is an array of `$ref: Node`. -/
def nodeDoc : Schemas :=
  [("Node", objSchema
     [("children", .node none (some "array") none
        (some (refSchema "#/components/schemas/Node")) none none none none)])]

/-- Fixture: a self-referential bare array wrapper, `A = {type: array,
items: {$ref: A}}`. -/
def wrapCycleDoc : Schemas :=
  [("A", .node none (some "array") none
     (some (refSchema "#/components/schemas/A")) none none none none)]

/-- Fixture: a root whose only edge to `A` is an `anyOf` variant of a
property. -/
def anyDoc : Schemas :=
  [("Root", objSchema
     [("x", .node none none none none none none
        (some [refSchema "#/components/schemas/A"]) none)]),
   ("A", objSchema [("id", strSchema)])]

/-- Fixture: the spec's Scenario 2 — a field referencing a bare array
wrapper over `Item`. -/
def lwDoc : Schemas :=
  [("Container", objSchema [("data", refSchema "#/components/schemas/ListWrapper")]),
   ("ListWrapper", .node none (some "array") none
      (some (refSchema "#/components/schemas/Item")) none none none none),
   ("Item", objSchema [("id", strSchema)])]

/-- Fixture: the polymorphism scenario — `Envelope.payload: oneOf [A, B]`. -/
def envDoc : Schemas :=
  [("Envelope", objSchema
     [("payload", .node none none none none none
        (some [refSchema "#/components/schemas/A",
               refSchema "#/components/schemas/B"]) none none)]),
   ("A", objSchema [("a", strSchema)]),
   ("B", objSchema [("b", strSchema)])]

/-- Fixture: a base schema named `_` (class-cases to the empty string) with
a subclass re-declaring its field. -/
def underscoreBaseDoc : Schemas :=
  [("_", objSchema [("x", strSchema)]),
   ("S", .node none none none none
      (some [refSchema "#/components/schemas/_",
             .node none none (some [("x", intSchema), ("y", strSchema)])
               none none none none none])
      none none none)]

/-- Fixture: a variant `V` with an `allOf` base named `_` that is also a
oneOf variant of `W.payload`. -/
def underscoreOneofDoc : Schemas :=
  [("_", objSchema [("x", strSchema)]),
   ("V", .node none none none none
      (some [refSchema "#/components/schemas/_"]) none none none),
   ("W", objSchema
     [("payload", .node none none none none none
        (some [refSchema "#/components/schemas/V"]) none none)])]

/-- Fixture: a class with two oneOf properties (`first`, then `second`). -/
def twoOneofDoc : Schemas :=
  [("Holder", objSchema
     [("first", .node none none none none none
        (some [refSchema "#/components/schemas/A"]) none none),
      ("second", .node none none none none none
        (some [refSchema "#/components/schemas/B"]) none none)]),
   ("A", objSchema [("a", strSchema)]),
   ("B", objSchema [("b", strSchema)])]

/-- Fixture: a schema whose only property points at a missing target. -/
def missingRefDoc : Schemas :=
  [("Broken", objSchema [("x", refSchema "#/components/schemas/Ghost")])]

/-- Fixture: a schema whose `allOf` has inline properties first and a
`$ref` only second. -/
def lateRefDoc : Schemas :=
  [("Pet", objSchema [("name", strSchema)]),
   ("Q", .node none none none none
      (some [.node none none (some [("z", strSchema)]) none none none none none,
             refSchema "#/components/schemas/Pet"])
      none none none)]

/-- A name is accounted for by a closure result when it is in the result,
or absent from the document, or a bare array wrapper (the three ways a
recursive visit of it can finish without materializing it). -/
def goodName (schemas : Schemas) (s : List String) (x : String) : Prop :=
  x ∈ s ∨ lookupSchema schemas x = none ∨
    ∃ sc, lookupSchema schemas x = some sc ∧ isBareArrayWrapper sc = true

/-- How many document names are not yet visited: the measure that shrinks
when the walk adds a name. -/
def unvisitedCount (schemas : Schemas) (v : List String) : Nat :=
  (List.filter (fun x => !(decide (x ∈ v))) (schemaNames schemas)).length

/-- The visited set only grows along `insertName`. -/
theorem subset_insertName (n : String) (v : List String) : v ⊆ insertName n v := by
  unfold insertName
  by_cases h : n ∈ v
  · simp [h]
  · simp only [h, if_false]
    exact fun x hx => List.mem_cons_of_mem _ hx

/-- The inserted name is a member of the grown set. -/
theorem mem_insertName (n : String) (v : List String) : n ∈ insertName n v := by
  unfold insertName
  by_cases h : n ∈ v <;> simp [h]

/-- On a fresh name, `insertName` is `cons`. -/
theorem insertName_not_mem {n : String} {v : List String} (h : n ∉ v) :
    insertName n v = n :: v := by
  simp [insertName, h]

/-- A successful lookup means the name is a key of the document. -/
theorem lookupSchema_mem_names {schemas : Schemas} {nm : String} {sc : Schema}
    (h : lookupSchema schemas nm = some sc) : nm ∈ schemaNames schemas := by
  unfold lookupSchema at h
  cases hf : List.find? (fun kv => kv.1 == nm) schemas with
  | none => rw [hf] at h; exact absurd h (by simp)
  | some kv =>
    have hmem := List.mem_of_find?_eq_some hf
    have hp := List.find?_some hf
    have : kv.1 = nm := by simpa using hp
    subst this
    exact List.mem_map_of_mem Prod.fst hmem

/-- Threading recursive calls that only grow the visited set only grows the
visited set. -/
theorem threadVisit_mono (f : String → List String → Option (List String))
    (hf : ∀ nm v s, f nm v = some s → v ⊆ s) :
    ∀ (l : List String) (v s : List String), threadVisit f l v = some s → v ⊆ s := by
  intro l
  induction l with
  | nil => intro v s h; simp [threadVisit] at h; subst h; exact fun _ hx => hx
  | cons a rest ih =>
    intro v s h
    simp only [threadVisit] at h
    cases hfa : f a v with
    | none => rw [hfa] at h; exact absurd h (by simp)
    | some v' =>
      rw [hfa] at h
      exact List.Subset.trans (hf a v v' hfa) (ih v' s h)

/-- The dependency walk only grows the visited set. -/
theorem deps_mono (fuel : Nat) :
    ∀ (nm : String) (schemas : Schemas) (v s : List String),
      get_all_schema_dependencies fuel nm schemas v = some s → v ⊆ s := by
  induction fuel with
  | zero => intro nm schemas v s h; simp [get_all_schema_dependencies] at h
  | succ n ih =>
    intro nm schemas v s h
    simp only [get_all_schema_dependencies] at h
    by_cases hv : nm ∈ v
    · simp [hv] at h; subst h; exact fun _ hx => hx
    · simp only [hv, if_false] at h
      cases hl : lookupSchema schemas nm with
      | none => rw [hl] at h; simp at h; subst h; exact fun _ hx => hx
      | some schema =>
        rw [hl] at h
        simp only at h
        by_cases hw : isBareArrayWrapper schema
        · simp only [hw, if_true] at h
          cases hit : schema.items with
          | none => rw [hit] at h; simp at h; subst h; exact fun _ hx => hx
          | some items =>
            rw [hit] at h
            dsimp only at h
            cases hr : items.ref with
            | none => rw [hr] at h; simp at h; subst h; exact fun _ hx => hx
            | some r =>
              rw [hr] at h
              exact ih _ _ _ _ h
        · simp only [hw, if_false] at h
          exact List.Subset.trans (subset_insertName nm v)
            (threadVisit_mono _ (fun nm' v' s' h' => ih nm' schemas v' s' h') _ _ _ h)

/-- A visited call either records its argument or its argument is absent
from the document or a bare array wrapper. -/
theorem deps_elem (fuel : Nat) (nm : String) (schemas : Schemas) (v s : List String)
    (h : get_all_schema_dependencies fuel nm schemas v = some s) :
    nm ∈ s ∨ lookupSchema schemas nm = none ∨
      ∃ sc, lookupSchema schemas nm = some sc ∧ isBareArrayWrapper sc = true := by
  cases fuel with
  | zero => simp [get_all_schema_dependencies] at h
  | succ n =>
    simp only [get_all_schema_dependencies] at h
    by_cases hv : nm ∈ v
    · simp [hv] at h; subst h; exact Or.inl hv
    · simp only [hv, if_false] at h
      cases hl : lookupSchema schemas nm with
      | none => exact Or.inr (Or.inl rfl)
      | some schema =>
        rw [hl] at h
        dsimp only at h
        by_cases hw : isBareArrayWrapper schema
        · exact Or.inr (Or.inr ⟨schema, rfl, hw⟩)
        · simp only [hw, Bool.false_eq_true, if_false] at h
          refine Or.inl ?_
          have hsub := threadVisit_mono _
            (fun nm' v' s' h' => deps_mono n nm' schemas v' s' h') _ _ _ h
          exact hsub (mem_insertName nm v)

/-- Names a threaded walk adds beyond the initial visited set all satisfy a
property preserved by the step function. -/
theorem threadVisit_adds (f : String → List String → Option (List String))
    (Q : String → Prop)
    (hf : ∀ nm v s, f nm v = some s → ∀ x ∈ s, x ∈ v ∨ Q x) :
    ∀ (l : List String) (v s : List String), threadVisit f l v = some s →
      ∀ x ∈ s, x ∈ v ∨ Q x := by
  intro l
  induction l with
  | nil => intro v s h x hx; simp [threadVisit] at h; subst h; exact Or.inl hx
  | cons a rest ih =>
    intro v s h x hx
    simp only [threadVisit] at h
    cases hfa : f a v with
    | none => rw [hfa] at h; exact absurd h (by simp)
    | some v' =>
      rw [hfa] at h
      rcases ih v' s h x hx with hx' | hq
      · exact hf a v v' hfa x hx'
      · exact Or.inr hq

/-- Every name the dependency walk adds is a present, non-wrapper schema:
bare array wrappers are never materialized into a closure. -/
theorem deps_nonwrapper (fuel : Nat) :
    ∀ (nm : String) (schemas : Schemas) (v s : List String),
      get_all_schema_dependencies fuel nm schemas v = some s →
      ∀ x ∈ s, x ∈ v ∨
        ∃ sc, lookupSchema schemas x = some sc ∧ isBareArrayWrapper sc = false := by
  induction fuel with
  | zero => intro nm schemas v s h; simp [get_all_schema_dependencies] at h
  | succ n ih =>
    intro nm schemas v s h x hx
    simp only [get_all_schema_dependencies] at h
    by_cases hv : nm ∈ v
    · simp [hv] at h; subst h; exact Or.inl hx
    · simp only [hv, if_false] at h
      cases hl : lookupSchema schemas nm with
      | none => rw [hl] at h; simp at h; subst h; exact Or.inl hx
      | some schema =>
        rw [hl] at h
        dsimp only at h
        by_cases hw : isBareArrayWrapper schema
        · simp only [hw, if_true] at h
          cases hit : schema.items with
          | none => rw [hit] at h; simp at h; subst h; exact Or.inl hx
          | some items =>
            rw [hit] at h
            dsimp only at h
            cases hr : items.ref with
            | none => rw [hr] at h; simp at h; subst h; exact Or.inl hx
            | some r =>
              rw [hr] at h
              exact ih _ _ _ _ h x hx
        · simp only [hw, Bool.false_eq_true, if_false] at h
          have hadds := threadVisit_adds _
            (fun y => ∃ sc, lookupSchema schemas y = some sc ∧ isBareArrayWrapper sc = false)
            (fun nm' v' s' h' x' hx' => ih nm' schemas v' s' h' x' hx') _ _ _ h x hx
          rcases hadds with hx' | hq
          · rw [insertName_not_mem hv] at hx'
            rcases List.mem_cons.mp hx' with rfl | hx2
            · exact Or.inr ⟨schema, hl, by simpa using hw⟩
            · exact Or.inl hx2
          · exact Or.inr hq

/-- Accountedness is preserved when the result set grows. -/
theorem goodName_mono {schemas : Schemas} {s s' : List String} {x : String}
    (hsub : s ⊆ s') (h : goodName schemas s x) : goodName schemas s' x := by
  rcases h with h | h | h
  · exact Or.inl (hsub h)
  · exact Or.inr (Or.inl h)
  · exact Or.inr (Or.inr h)

/-- Every name a threaded walk was asked to visit is accounted for by the
walk's final result. -/
theorem threadVisit_targets (schemas : Schemas)
    (f : String → List String → Option (List String))
    (hmono : ∀ nm v s, f nm v = some s → v ⊆ s)
    (helem : ∀ nm v s, f nm v = some s → goodName schemas s nm) :
    ∀ (l : List String) (v s : List String), threadVisit f l v = some s →
      ∀ x ∈ l, goodName schemas s x := by
  intro l
  induction l with
  | nil => intro v s h x hx; simp at hx
  | cons a rest ih =>
    intro v s h x hx
    simp only [threadVisit] at h
    cases hfa : f a v with
    | none => rw [hfa] at h; exact absurd h (by simp)
    | some v' =>
      rw [hfa] at h
      rcases List.mem_cons.mp hx with rfl | hx2
      · exact goodName_mono (threadVisit_mono f hmono rest v' s h) (helem x v v' hfa)
      · exact ih v' s h x hx2

/-- A threaded walk preserves the invariant that every recorded name has
all of its direct targets accounted for. -/
theorem threadVisit_inv (schemas : Schemas)
    (f : String → List String → Option (List String))
    (hmono : ∀ nm v s, f nm v = some s → v ⊆ s)
    (hinv : ∀ nm v s, f nm v = some s →
      ∀ y ∈ s, y ∈ v ∨ ∀ x ∈ directTargets schemas y, goodName schemas s x) :
    ∀ (l : List String) (v s : List String), threadVisit f l v = some s →
      ∀ y ∈ s, y ∈ v ∨ ∀ x ∈ directTargets schemas y, goodName schemas s x := by
  intro l
  induction l with
  | nil => intro v s h y hy; simp [threadVisit] at h; subst h; exact Or.inl hy
  | cons a rest ih =>
    intro v s h y hy
    simp only [threadVisit] at h
    cases hfa : f a v with
    | none => rw [hfa] at h; exact absurd h (by simp)
    | some v' =>
      rw [hfa] at h
      rcases ih v' s h y hy with hy' | hgood
      · rcases hinv a v v' hfa y hy' with hy'' | hgood'
        · exact Or.inl hy''
        · exact Or.inr (fun x hx =>
            goodName_mono (threadVisit_mono f hmono rest v' s h) (hgood' x hx))
      · exact Or.inr hgood

/-- Closure invariant: in a successful dependency walk, every recorded name
(beyond the initial visited set) has every one of its direct targets
accounted for by the result. -/
theorem deps_closed (fuel : Nat) :
    ∀ (nm : String) (schemas : Schemas) (v s : List String),
      get_all_schema_dependencies fuel nm schemas v = some s →
      ∀ y ∈ s, y ∈ v ∨ ∀ x ∈ directTargets schemas y, goodName schemas s x := by
  induction fuel with
  | zero => intro nm schemas v s h; simp [get_all_schema_dependencies] at h
  | succ n ih =>
    intro nm schemas v s h y hy
    simp only [get_all_schema_dependencies] at h
    by_cases hv : nm ∈ v
    · simp [hv] at h; subst h; exact Or.inl hy
    · simp only [hv, if_false] at h
      cases hl : lookupSchema schemas nm with
      | none => rw [hl] at h; simp at h; subst h; exact Or.inl hy
      | some schema =>
        rw [hl] at h
        dsimp only at h
        by_cases hw : isBareArrayWrapper schema
        · simp only [hw, if_true] at h
          cases hit : schema.items with
          | none => rw [hit] at h; simp at h; subst h; exact Or.inl hy
          | some items =>
            rw [hit] at h
            dsimp only at h
            cases hr : items.ref with
            | none => rw [hr] at h; simp at h; subst h; exact Or.inl hy
            | some r =>
              rw [hr] at h
              exact ih _ _ _ _ h y hy
        · simp only [hw, Bool.false_eq_true, if_false] at h
          have hmono := fun nm' v' s' h' => deps_mono n nm' schemas v' s' h'
          have htargets := threadVisit_targets schemas _ hmono
            (fun nm' v' s' h' => deps_elem n nm' schemas v' s' h') _ _ _ h
          rcases threadVisit_inv schemas _ hmono
              (fun nm' v' s' h' => ih nm' schemas v' s' h') _ _ _ h y hy with hy' | hgood
          · rw [insertName_not_mem hv] at hy'
            rcases List.mem_cons.mp hy' with rfl | hy2
            · refine Or.inr (fun x hx => htargets x ?_)
              have hdt : directTargets schemas y =
                  allOfRefNames schema ++
                    flatMapL (fun kv => propClosureTargets kv.2) (mergedProps schema) := by
                simp [directTargets, hl]
              rw [hdt] at hx
              exact hx
            · exact Or.inl hy2
          · exact Or.inr hgood

/-- A stronger filter keeps at most as many elements. -/
theorem length_filter_imp {α : Type} (p q : α → Bool)
    (himp : ∀ a, q a = true → p a = true) :
    ∀ l : List α, (List.filter q l).length ≤ (List.filter p l).length := by
  intro l
  induction l with
  | nil => simp
  | cons a rest ih =>
    cases hq : q a with
    | true =>
      simp only [List.filter, hq, himp a hq, List.length_cons]
      exact Nat.succ_le_succ ih
    | false =>
      cases hp : p a with
      | true =>
        simp only [List.filter, hq, hp, List.length_cons]
        exact Nat.le_succ_of_le ih
      | false =>
        simp only [List.filter, hq, hp]
        exact ih

/-- A strictly stronger filter (witnessed by one kept-then-dropped element)
keeps strictly fewer elements. -/
theorem length_filter_imp_lt {α : Type} (p q : α → Bool)
    (himp : ∀ a, q a = true → p a = true) (w : α)
    (hpw : p w = true) (hqw : q w = false) :
    ∀ l : List α, w ∈ l →
      (List.filter q l).length < (List.filter p l).length := by
  intro l
  induction l with
  | nil => intro h; simp at h
  | cons a rest ih =>
    intro hmem
    rcases List.mem_cons.mp hmem with rfl | hmem'
    · simp only [List.filter, hqw, hpw, List.length_cons]
      exact Nat.lt_succ_of_le (length_filter_imp p q himp rest)
    · cases hq : q a with
      | true =>
        simp only [List.filter, hq, himp a hq, List.length_cons]
        exact Nat.succ_lt_succ (ih hmem')
      | false =>
        cases hp : p a with
        | true =>
          simp only [List.filter, hq, hp, List.length_cons]
          exact Nat.lt_succ_of_lt (ih hmem')
        | false =>
          simp only [List.filter, hq, hp]
          exact ih hmem'

/-- Growing the visited set never increases the unvisited count. -/
theorem unvisitedCount_mono {schemas : Schemas} {v w : List String}
    (hsub : v ⊆ w) : unvisitedCount schemas w ≤ unvisitedCount schemas v := by
  refine length_filter_imp _ _ ?_ (schemaNames schemas)
  intro a ha
  simp only [Bool.not_eq_true'] at ha ⊢
  simp only [decide_eq_false_iff_not] at ha ⊢
  exact fun hav => ha (hsub hav)

/-- Visiting a fresh document name strictly shrinks the unvisited count. -/
theorem unvisitedCount_insert_lt {schemas : Schemas} {nm : String} {v : List String}
    (hnm : nm ∈ schemaNames schemas) (hv : nm ∉ v) :
    unvisitedCount schemas (nm :: v) < unvisitedCount schemas v := by
  refine length_filter_imp_lt _ _ ?_ nm ?_ ?_ _ hnm
  · intro a ha
    simp only [Bool.not_eq_true', decide_eq_false_iff_not] at ha ⊢
    exact fun hav => ha (List.mem_cons_of_mem _ hav)
  · simp [hv]
  · simp

/-- A threaded walk whose every step succeeds on any grown visited set
succeeds. -/
theorem threadVisit_isSome (f : String → List String → Option (List String))
    (hmono : ∀ nm v s, f nm v = some s → v ⊆ s) (v0 : List String) :
    ∀ (l : List String) (v : List String), v0 ⊆ v →
      (∀ x ∈ l, ∀ w, v0 ⊆ w → (f x w).isSome) →
      (threadVisit f l v).isSome := by
  intro l
  induction l with
  | nil => intro v _ _; simp [threadVisit]
  | cons a rest ih =>
    intro v hv hsucc
    simp only [threadVisit]
    cases hfa : f a v with
    | none =>
      have := hsucc a (List.mem_cons_self a rest) v hv
      rw [hfa] at this; simp at this
    | some v' =>
      exact ih v' (List.Subset.trans hv (hmono a v v' hfa))
        (fun x hx w hw => hsucc x (List.mem_cons_of_mem _ hx) w hw)

/-- Fuel sufficiency: when the bare-array-wrapper item chains admit a
decreasing rank (no wrapper cycle), a budget linear in the number of
unvisited names times the rank bound makes the dependency walk finish. -/
theorem deps_sufficient (schemas : Schemas) (rank : String → Nat) (B : Nat)
    (hB : ∀ x, rank x ≤ B)
    (hrank : ∀ nm sc it r, lookupSchema schemas nm = some sc →
      isBareArrayWrapper sc = true → sc.items = some it → it.ref = some r →
      rank (refLast r) < rank nm) :
    ∀ (fuel : Nat) (nm : String) (v : List String),
      unvisitedCount schemas v * (B + 1) + rank nm < fuel →
      (get_all_schema_dependencies fuel nm schemas v).isSome := by
  intro fuel
  induction fuel with
  | zero => intro nm v h; exact absurd h (Nat.not_lt_zero _)
  | succ n ih =>
    intro nm v hfuel
    simp only [get_all_schema_dependencies]
    by_cases hv : nm ∈ v
    · simp [hv]
    · simp only [hv, if_false]
      cases hl : lookupSchema schemas nm with
      | none => simp
      | some schema =>
        dsimp only
        by_cases hw : isBareArrayWrapper schema
        · simp only [hw, if_true]
          cases hit : schema.items with
          | none => simp
          | some items =>
            dsimp only
            cases hr : items.ref with
            | none => simp
            | some r =>
              refine ih (refLast r) v ?_
              have hlt := hrank nm schema items r hl hw hit hr
              omega
        · simp only [hw, Bool.false_eq_true, if_false]
          rw [insertName_not_mem hv]
          refine threadVisit_isSome _
            (fun nm' v' s' h' => deps_mono n nm' schemas v' s' h') (nm :: v) _ _
            (fun _ hx => hx) ?_
          intro x _ w hwsub
          refine ih x w ?_
          have h1 : unvisitedCount schemas (nm :: v) < unvisitedCount schemas v :=
            unvisitedCount_insert_lt (lookupSchema_mem_names hl) hv
          have h2 : unvisitedCount schemas w ≤ unvisitedCount schemas (nm :: v) :=
            unvisitedCount_mono hwsub
          have h3 : rank x ≤ B := hB x
          have h4 : unvisitedCount schemas w * (B + 1) + (B + 1) ≤
              unvisitedCount schemas v * (B + 1) := by
            have h5 : unvisitedCount schemas w + 1 ≤ unvisitedCount schemas v := by omega
            calc unvisitedCount schemas w * (B + 1) + (B + 1)
                = (unvisitedCount schemas w + 1) * (B + 1) := by ring
              _ ≤ unvisitedCount schemas v * (B + 1) :=
                  Nat.mul_le_mul_right _ h5
          omega

/-- A `firstSome` hit comes from some list element. -/
theorem firstSome_exists {α β : Type} {l : List α} {f : α → Option β} {b : β}
    (h : firstSome l f = some b) : ∃ a ∈ l, f a = some b := by
  induction l with
  | nil => simp [firstSome] at h
  | cons a rest ih =>
    simp only [firstSome] at h
    cases hfa : f a with
    | some b' =>
      rw [hfa] at h
      exact ⟨a, List.mem_cons_self a rest, hfa.trans h⟩
    | none =>
      rw [hfa] at h
      obtain ⟨a', ha', hfa'⟩ := ih h
      exact ⟨a', List.mem_cons_of_mem _ ha', hfa'⟩

/-- A `firstSome` hit is the first hit: everything before it maps to
`none`. -/
theorem firstSome_split {α β : Type} {l : List α} {f : α → Option β} {b : β}
    (h : firstSome l f = some b) :
    ∃ pre a post, l = pre ++ a :: post ∧ f a = some b ∧ ∀ x ∈ pre, f x = none := by
  induction l with
  | nil => simp [firstSome] at h
  | cons a rest ih =>
    simp only [firstSome] at h
    cases hfa : f a with
    | some b' =>
      rw [hfa] at h
      exact ⟨[], a, rest, rfl, hfa.trans h, by simp⟩
    | none =>
      rw [hfa] at h
      obtain ⟨pre, a', post, hsplit, hfa', hpre⟩ := ih h
      refine ⟨a :: pre, a', post, by rw [hsplit]; rfl, hfa', ?_⟩
      intro x hx
      rcases List.mem_cons.mp hx with rfl | hx'
      · exact hfa
      · exact hpre x hx'

/-- The walk on the self-referential bare array wrapper `A` consumes its
whole budget without finishing: the source recursion never terminates. -/
theorem wrapCycle_diverges :
    ∀ fuel, get_all_schema_dependencies fuel "A" wrapCycleDoc [] = none := by
  intro fuel
  induction fuel with
  | zero => rfl
  | succ n ih =>
    have hstep : get_all_schema_dependencies (n + 1) "A" wrapCycleDoc [] =
        get_all_schema_dependencies n "A" wrapCycleDoc [] := by
      have hr : refLast "#/components/schemas/A" = "A" := by decide
      simp only [get_all_schema_dependencies]
      norm_num [wrapCycleDoc, lookupSchema, List.find?, isBareArrayWrapper,
        Schema.typ, Schema.properties, Schema.allOf, Schema.items, Schema.ref,
        refSchema, hr]
    rw [hstep]
    exact ih

/-- C1: for every root schema name present in the document, a finished
dependency closure contains the root itself unless the root is a bare
array wrapper, in which case the wrapper is skipped (never recorded) and
its item reference is walked instead; and re-running the closure on the
unchanged document returns an identical set. -/
theorem C1_closure_contains_root (schemas : Schemas) (root : String) (sc : Schema)
    (fuel : Nat) (s : List String)
    (hlook : lookupSchema schemas root = some sc)
    (hrun : get_all_schema_dependencies fuel root schemas [] = some s) :
    (isBareArrayWrapper sc = false → root ∈ s)
    ∧ (isBareArrayWrapper sc = true → root ∉ s)
    ∧ (∀ it r m, isBareArrayWrapper sc = true → sc.items = some it →
        it.ref = some r → fuel = m + 1 →
        get_all_schema_dependencies fuel root schemas [] =
          get_all_schema_dependencies m (refLast r) schemas [])
    ∧ (∀ s2, get_all_schema_dependencies fuel root schemas [] = some s2 → s2 = s) := by
  refine ⟨?_, ?_, ?_, ?_⟩
  · intro hnw
    rcases deps_elem fuel root schemas [] s hrun with hm | hn | ⟨sc', hl', hw'⟩
    · exact hm
    · rw [hlook] at hn; exact absurd hn (by simp)
    · rw [hlook] at hl'
      injection hl' with he
      subst he
      rw [hw'] at hnw
      exact absurd hnw (by simp)
  · intro hwrap hmem
    rcases deps_nonwrapper fuel root schemas [] s hrun root hmem with hm | ⟨sc', hl', hw'⟩
    · simp at hm
    · rw [hlook] at hl'
      injection hl' with he
      subst he
      rw [hwrap] at hw'
      exact absurd hw' (by simp)
  · intro it r m hwrap hit hr hm
    subst hm
    simp [get_all_schema_dependencies, hlook, hwrap, hit, hr]
  · intro s2 h2
    rw [hrun] at h2
    injection h2 with he
    exact he.symm

/-- C1 witness: the Pet/Dog document — the closure of the non-wrapper root
`Dog` finishes and contains `Dog`. -/
theorem C1_witness :
    (lookupSchema petDoc "Dog" = some ((lookupSchema petDoc "Dog").getD Schema.emptyNode))
    ∧ (get_all_schema_dependencies 6 "Dog" petDoc [] = some ["Pet", "Dog"])
    ∧ (isBareArrayWrapper ((lookupSchema petDoc "Dog").getD Schema.emptyNode) = false)
    ∧ "Dog" ∈ ["Pet", "Dog"] :=
  ⟨rfl, by decide, by decide,
    (C1_closure_contains_root petDoc "Dog" ((lookupSchema petDoc "Dog").getD Schema.emptyNode)
      6 ["Pet", "Dog"] rfl (by decide)).1 (by decide)⟩

/-- C2 counterexample: the claim "the dependency-closure walk terminates on
every document" is false — on the self-referential bare array wrapper
`A = {type: array, items: {$ref: A}}` the wrapper branch recurses without
ever growing the visited set, so no recursion budget suffices. -/
theorem C2_counterexample :
    ¬ ∃ fuel s, get_all_schema_dependencies fuel "A" wrapCycleDoc [] = some s := by
  rintro ⟨fuel, s, h⟩
  rw [wrapCycle_diverges fuel] at h
  exact absurd h (by simp)

/-- C2 (amended): the walk terminates on every document whose bare-array-
wrapper item chains carry a strictly decreasing rank (no wrapper cycle) —
non-wrapper names are added to the visited set before recursion, so a
budget of unvisited-names times the rank bound suffices; in particular for
the self-referential `Node` (cyclic only through properties) the closure is
exactly `{"Node"}`. -/
theorem C2_closure_terminates (schemas : Schemas) (rank : String → Nat) (B : Nat)
    (hB : ∀ x, rank x ≤ B)
    (hrank : ∀ nm sc it r, lookupSchema schemas nm = some sc →
      isBareArrayWrapper sc = true → sc.items = some it → it.ref = some r →
      rank (refLast r) < rank nm)
    (root : String) (fuel : Nat)
    (hfuel : unvisitedCount schemas [] * (B + 1) + rank root < fuel) :
    (∃ s, get_all_schema_dependencies fuel root schemas [] = some s)
    ∧ get_all_schema_dependencies 2 "Node" nodeDoc [] = some ["Node"] := by
  constructor
  · exact Option.isSome_iff_exists.mp
      (deps_sufficient schemas rank B hB hrank fuel root [] hfuel)
  · decide

/-- C2 witness: the `Node` document has no bare array wrapper, so the rank
hypotheses hold trivially and budget 2 completes the walk with `{"Node"}`. -/
theorem C2_witness :
    (unvisitedCount nodeDoc [] * (0 + 1) + 0 < 2)
    ∧ (∃ s, get_all_schema_dependencies 2 "Node" nodeDoc [] = some s)
    ∧ get_all_schema_dependencies 2 "Node" nodeDoc [] = some ["Node"] := by
  have hrank : ∀ nm sc it r, lookupSchema nodeDoc nm = some sc →
      isBareArrayWrapper sc = true → sc.items = some it → it.ref = some r →
      (fun _ : String => 0) (refLast r) < (fun _ : String => 0) nm := by
    intro nm sc it r hl hw hit hr
    exfalso
    have hmem := lookupSchema_mem_names hl
    have hnm : nm = "Node" := by simpa [nodeDoc, schemaNames] using hmem
    subst hnm
    have hval : isBareArrayWrapper ((lookupSchema nodeDoc "Node").getD Schema.emptyNode) = false := by
      decide
    rw [hl] at hval
    simp only [Option.getD_some] at hval
    rw [hw] at hval
    exact absurd hval (by simp)
  have h := C2_closure_terminates nodeDoc (fun _ => 0) 0 (fun _ => Nat.le_refl 0)
    hrank "Node" 2 (by decide)
  exact ⟨by decide, h.1, h.2⟩

/-- C3: keyword precedence in type resolution — `$ref` > `allOf` > `oneOf` >
primitive `type`: whenever the highest-precedence keyword is present, it
alone (together with the document) determines the resulting type, whatever
the lower-precedence keys carry. -/
theorem C3_keyword_precedence (fuel : Nat) (schemas : Schemas) (visited : List String)
    (s1 s2 : Schema) (fn1 fn2 : Option String) :
    (∀ r, s1.ref = some r → s2.ref = some r →
      get_java_type_from_openapi fuel s1 schemas visited fn1 =
        get_java_type_from_openapi fuel s2 schemas visited fn2)
    ∧ (∀ l, s1.ref = none → s2.ref = none → s1.allOf = some l → s2.allOf = some l →
      get_java_type_from_openapi fuel s1 schemas visited fn1 =
        get_java_type_from_openapi fuel s2 schemas visited fn1)
    ∧ (∀ l, s1.ref = none → s2.ref = none → s1.allOf = none → s2.allOf = none →
        s1.oneOf = some l → s2.oneOf = some l →
      get_java_type_from_openapi fuel s1 schemas visited fn1 =
        get_java_type_from_openapi fuel s2 schemas visited fn2) := by
  cases fuel with
  | zero =>
    exact ⟨fun _ _ _ => rfl, fun _ _ _ _ _ => rfl, fun _ _ _ _ _ _ _ => rfl⟩
  | succ n =>
    refine ⟨?_, ?_, ?_⟩
    · intro r h1 h2
      have he1 : s1.isEmptyNode = false := by
        simp [Schema.isEmptyNode, h1]
      have he2 : s2.isEmptyNode = false := by
        simp [Schema.isEmptyNode, h2]
      simp only [get_java_type_from_openapi, he1, he2, Bool.false_eq_true,
        if_false, h1, h2]
    · intro l h1 h2 h3 h4
      have he1 : s1.isEmptyNode = false := by
        simp [Schema.isEmptyNode, h3]
      have he2 : s2.isEmptyNode = false := by
        simp [Schema.isEmptyNode, h4]
      simp only [get_java_type_from_openapi, he1, he2, Bool.false_eq_true,
        if_false, h1, h2, h3, h4]
    · intro l h1 h2 h3 h4 h5 h6
      have he1 : s1.isEmptyNode = false := by
        simp [Schema.isEmptyNode, h5]
      have he2 : s2.isEmptyNode = false := by
        simp [Schema.isEmptyNode, h6]
      simp only [get_java_type_from_openapi, he1, he2, Bool.false_eq_true,
        if_false, h1, h2, h3, h4, h5, h6]

/-- C3 witness: a node carrying `$ref`, `allOf`, `oneOf` and `type` at once
resolves exactly like the node carrying only its `$ref`. -/
theorem C3_witness :
    ((Schema.node (some "#/components/schemas/A") (some "string") none none
        (some [refSchema "#/components/schemas/B"])
        (some [refSchema "#/components/schemas/B"]) none none).ref =
      some "#/components/schemas/A")
    ∧ ((refSchema "#/components/schemas/A").ref = some "#/components/schemas/A")
    ∧ (get_java_type_from_openapi 3
        (Schema.node (some "#/components/schemas/A") (some "string") none none
          (some [refSchema "#/components/schemas/B"])
          (some [refSchema "#/components/schemas/B"]) none none)
        envDoc [] (some "payload") =
      get_java_type_from_openapi 3 (refSchema "#/components/schemas/A") envDoc [] none)
    ∧ (get_java_type_from_openapi 3 (refSchema "#/components/schemas/A") envDoc [] none =
      some "A") :=
  ⟨rfl, rfl,
    (C3_keyword_precedence 3 envDoc []
      (Schema.node (some "#/components/schemas/A") (some "string") none none
        (some [refSchema "#/components/schemas/B"])
        (some [refSchema "#/components/schemas/B"]) none none)
      (refSchema "#/components/schemas/A") (some "payload") none).1
      "#/components/schemas/A" rfl rfl,
    by decide⟩

/-- C4: `base(S) = P` exactly when `S` is present, its `allOf` is a
non-empty list whose first element carries `$ref` resolving to `P`; a first
element without `$ref` yields no base regardless of refs later in the list;
and the base is unique. -/
theorem C4_allof_first_inheritance (schemas : Schemas) (S P : String) :
    (get_base_class S schemas = some P ↔
      ∃ sc first rest, lookupSchema schemas S = some sc ∧
        sc.allOf = some (first :: rest) ∧
        ∃ r, first.ref = some r ∧ refLast r = P)
    ∧ (∀ sc first rest, lookupSchema schemas S = some sc →
        sc.allOf = some (first :: rest) → first.ref = none →
        get_base_class S schemas = none)
    ∧ (∀ P2, get_base_class S schemas = some P →
        get_base_class S schemas = some P2 → P2 = P) := by
  refine ⟨⟨?_, ?_⟩, ?_, ?_⟩
  · intro h
    unfold get_base_class at h
    cases hl : lookupSchema schemas S with
    | none => rw [hl] at h; exact absurd h (by simp)
    | some sc =>
      rw [hl] at h
      dsimp only at h
      cases ha : sc.allOf with
      | none => rw [ha] at h; exact absurd h (by simp)
      | some l =>
        rw [ha] at h
        cases l with
        | nil => exact absurd h (by simp)
        | cons first rest =>
          dsimp only at h
          cases hr : first.ref with
          | none => rw [hr] at h; exact absurd h (by simp)
          | some r =>
            rw [hr] at h
            simp only [Option.map] at h
            injection h with he
            exact ⟨sc, first, rest, rfl, ha, r, hr, he⟩
  · rintro ⟨sc, first, rest, hl, ha, r, hr, he⟩
    unfold get_base_class
    rw [hl]
    dsimp only
    rw [ha]
    dsimp only
    rw [hr]
    simp [he]
  · intro sc first rest hl ha hr
    unfold get_base_class
    rw [hl]
    dsimp only
    rw [ha]
    dsimp only
    rw [hr]
    rfl
  · intro P2 h1 h2
    rw [h1] at h2
    injection h2 with he
    exact he.symm

/-- C4 witness: `Dog`'s base is `Pet`; `Q`, whose `allOf` lists inline
properties first and a `$ref` only second, has no base. -/
theorem C4_witness :
    (get_base_class "Dog" petDoc = some "Pet")
    ∧ (∃ sc first rest, lookupSchema petDoc "Dog" = some sc ∧
        sc.allOf = some (first :: rest) ∧
        ∃ r, first.ref = some r ∧ refLast r = "Pet")
    ∧ (get_base_class "Q" lateRefDoc = none) :=
  ⟨rfl,
    (C4_allof_first_inheritance petDoc "Dog" "Pet").1.mp rfl,
    (C4_allof_first_inheritance lateRefDoc "Q" "").2.1
      ((lookupSchema lateRefDoc "Q").getD Schema.emptyNode)
      (Schema.node none none (some [("z", strSchema)]) none none none none none)
      [refSchema "#/components/schemas/Pet"] rfl rfl rfl⟩

/-- C5 counterexample: the claim "fields rendered on S exclude every field
of its allOf base P" fails when P's Java class name is empty — base `_`
class-cases to `""`, which is falsy, so the subtraction at lines 655-661 is
skipped and `S` re-renders the inherited field `x`. -/
theorem C5_counterexample :
    get_base_class "S" underscoreBaseDoc = some "_"
    ∧ Option.map (List.map Prod.fst) (get_schema_properties_all 4 "_" underscoreBaseDoc) =
        some ["x"]
    ∧ Option.map (List.map Prod.fst) (own_rendered_props 4 "S" underscoreBaseDoc) =
        some ["x", "y"]
    ∧ to_java_class_name "_" = "" := by
  refine ⟨rfl, by decide, by decide, by decide⟩

/-- C5 (amended): for every schema S with an allOf-derived base P whose
Java class name is non-empty, the rendered own fields exclude every field
name of P's recursively computed field set — name-based, so a field
re-declared with a different type is dropped too. -/
theorem C5_inherited_fields_dropped (fuel : Nat) (S P : String) (schemas : Schemas)
    (own bp : List (String × Schema))
    (hbase : get_base_class S schemas = some P)
    (hcls : to_java_class_name P ≠ "")
    (hown : own_rendered_props fuel S schemas = some own)
    (hbp : get_schema_properties_all fuel P schemas = some bp) :
    ∀ k ∈ List.map Prod.fst bp, k ∉ List.map Prod.fst own := by
  have hPne : P ≠ "" := by
    intro hP
    subst hP
    exact hcls (by decide)
  have hres : resolved_base_class_name S schemas = some (to_java_class_name P) := by
    unfold resolved_base_class_name
    rw [hbase]
    simp only [truthyStr, hPne, if_false, Option.map]
    simp [hcls]
  unfold own_rendered_props at hown
  cases hall : get_schema_properties_all fuel S schemas with
  | none => rw [hall] at hown; exact absurd hown (by simp)
  | some allProps =>
    rw [hall] at hown
    dsimp only at hown
    rw [hres] at hown
    dsimp only at hown
    rw [hbase] at hown
    dsimp only at hown
    rw [hbp] at hown
    dsimp only at hown
    injection hown with he
    subst he
    intro k hk hk2
    rcases List.mem_map.mp hk2 with ⟨kv, hkv, hkv1⟩
    rcases List.mem_map.mp hk with ⟨kv2, hkv2, hkv21⟩
    have hfil := (List.mem_filter.mp hkv).2
    simp only [Bool.not_eq_true'] at hfil
    rw [List.any_eq_false] at hfil
    have hne := hfil kv2 hkv2
    have heq : kv2.1 = kv.1 := hkv21.trans hkv1.symm
    rw [heq] at hne
    simp at hne

/-- C5 witness: `Dog extends Pet` re-declares `name : integer`; the
rendered own fields are exactly `breed` — the re-declared `name` is
dropped by name. -/
theorem C5_witness :
    (get_base_class "Dog" petDoc = some "Pet")
    ∧ (to_java_class_name "Pet" ≠ "")
    ∧ (own_rendered_props 5 "Dog" petDoc =
        some [("breed", strSchema)])
    ∧ (Option.map (List.map Prod.fst) (get_schema_properties_all 5 "Pet" petDoc) =
        some ["name"])
    ∧ "name" ∉ List.map Prod.fst [("breed", strSchema)] :=
  ⟨rfl, by decide, rfl, by decide,
    C5_inherited_fields_dropped 5 "Dog" "Pet" petDoc
      [("breed", strSchema)]
      ((get_schema_properties_all 5 "Pet" petDoc).getD [])
      rfl (by decide) rfl rfl "name" (by decide)⟩

/-- C6 counterexample: "allOf wins over oneOf-derived inheritance" fails
when the allOf base's class name is empty — variant `V` has the allOf base
`_` (class name `""`, falsy), so the oneOf-derived base `Payload` is
applied instead. -/
theorem C6_counterexample :
    get_base_class "V" underscoreOneofDoc = some "_"
    ∧ to_java_class_name "_" = ""
    ∧ resolved_base_class_name "V" underscoreOneofDoc = some "Payload"
    ∧ some "Payload" ≠ Option.map to_java_class_name (some "_") := by
  refine ⟨rfl, by decide, by decide, by decide⟩

/-- C6 (amended): the synthetic oneOf base type's name is the class-cased
field name (so equally named fields of unrelated classes collide onto one
base name); a variant's resolved base is the oneOf-derived name when it has
no allOf base, and the allOf base wins provided its class name is
non-empty; the owning class gets the generic parameter
`T<FieldName> extends <FieldName>`, which becomes the field's type. -/
theorem C6_oneof_base_from_field (schemas : Schemas) :
    (∀ V b, find_oneof_base_class V schemas = some b →
      ∃ W p ps, (p, ps) ∈ get_schema_properties_own W schemas ∧
        W ∈ schemaNames schemas ∧
        (∃ l, ps.oneOf = some l ∧ ∃ o ∈ l, ∃ r, o.ref = some r ∧ refLast r = V) ∧
        b = to_java_class_name p)
    ∧ (∀ V b, get_base_class V schemas = none →
        find_oneof_base_class V schemas = some b → b ≠ "" →
        resolved_base_class_name V schemas = some b)
    ∧ (∀ V P, get_base_class V schemas = some P → to_java_class_name P ≠ "" →
        resolved_base_class_name V schemas = some (to_java_class_name P))
    ∧ (∀ W p tys, has_oneof_field W schemas = some (p, tys) → p ≠ "" → tys ≠ [] →
        generic_param_of W schemas =
          some ("T" ++ to_java_class_name p ++ " extends " ++ to_java_class_name p))
    ∧ (∀ W p tys ps fuel, has_oneof_field W schemas = some (p, tys) → p ≠ "" →
        field_java_type fuel W schemas p ps = some ("T" ++ to_java_class_name p))
    ∧ (∀ W1 W2 p t1 t2, has_oneof_field W1 schemas = some (p, t1) →
        has_oneof_field W2 schemas = some (p, t2) →
        oneof_base_name W1 schemas = oneof_base_name W2 schemas) := by
  refine ⟨?_, ?_, ?_, ?_, ?_, ?_⟩
  · intro V b h
    unfold find_oneof_base_class at h
    obtain ⟨parent, hparent, hinner⟩ := firstSome_exists h
    obtain ⟨kv, hkv, hmatch⟩ := firstSome_exists hinner
    cases ho : kv.2.oneOf with
    | none => rw [ho] at hmatch; exact absurd hmatch (by simp)
    | some l =>
      rw [ho] at hmatch
      dsimp only at hmatch
      by_cases hany : List.any l (fun o =>
          match o.ref with
          | some r => refLast r == V
          | none => false) = true
      · rw [if_pos hany] at hmatch
        injection hmatch with hb
        rcases List.any_eq_true.mp hany with ⟨o, ho2, hcond⟩
        cases hr : o.ref with
        | none => rw [hr] at hcond; simp at hcond
        | some r =>
          rw [hr] at hcond
          dsimp only at hcond
          exact ⟨parent.1, kv.1, kv.2, hkv,
            List.mem_map_of_mem Prod.fst hparent,
            ⟨l, ho, o, ho2, r, hr, eq_of_beq hcond⟩, hb.symm⟩
      · rw [if_neg hany] at hmatch
        exact absurd hmatch (by simp)
  · intro V b hnone hfind hb
    unfold resolved_base_class_name
    rw [hnone, hfind]
    simp [truthyStr, hb]
  · intro V P hbase hcls
    have hPne : P ≠ "" := by
      intro hP
      subst hP
      exact hcls (by decide)
    unfold resolved_base_class_name
    rw [hbase]
    simp only [truthyStr, hPne, if_false, Option.map]
    simp [hcls]
  · intro W p tys hhas hp htys
    cases tys with
    | nil => exact absurd rfl htys
    | cons a as =>
      unfold generic_param_of
      rw [hhas]
      simp [hp]
  · intro W p tys ps fuel hhas hp
    unfold field_java_type
    rw [hhas]
    simp [hp]
  · intro W1 W2 p t1 t2 h1 h2
    unfold oneof_base_name
    rw [h1, h2]

/-- C6 witness: the Envelope/A/B document — the descriptor's base name
`Payload` comes from the field `payload`, variant `A` (no allOf base)
resolves to base `Payload`, and the owner gets the generic parameter. -/
theorem C6_witness :
    (has_oneof_field "Envelope" envDoc =
      some ("payload", [refSchema "#/components/schemas/A",
                        refSchema "#/components/schemas/B"]))
    ∧ (get_base_class "A" envDoc = none)
    ∧ (find_oneof_base_class "A" envDoc = some "Payload")
    ∧ (resolved_base_class_name "A" envDoc = some "Payload")
    ∧ (generic_param_of "Envelope" envDoc =
        some ("T" ++ to_java_class_name "payload" ++ " extends " ++
          to_java_class_name "payload"))
    ∧ (field_java_type 3 "Envelope" envDoc "payload"
        (.node none none none none none
          (some [refSchema "#/components/schemas/A",
                 refSchema "#/components/schemas/B"]) none none) =
        some ("T" ++ to_java_class_name "payload")) :=
  ⟨rfl, rfl, rfl,
    (C6_oneof_base_from_field envDoc).2.1 "A" "Payload" rfl rfl (by decide),
    (C6_oneof_base_from_field envDoc).2.2.2.1 "Envelope" "payload"
      [refSchema "#/components/schemas/A", refSchema "#/components/schemas/B"]
      rfl (by decide) (List.cons_ne_nil _ _),
    (C6_oneof_base_from_field envDoc).2.2.2.2.1 "Envelope" "payload"
      [refSchema "#/components/schemas/A", refSchema "#/components/schemas/B"]
      (.node none none none none none
        (some [refSchema "#/components/schemas/A",
               refSchema "#/components/schemas/B"]) none none) 3
      rfl (by decide)⟩

/-- C7: a `$ref` to a bare array wrapper resolves (with a fresh visited
set, as every field resolution starts) to `List<resolveType(items)>`
instead of a reference to the wrapper, and the wrapper name never appears
in any finished dependency closure. -/
theorem C7_wrapper_ref_inlined (schemas : Schemas) (s w : Schema) (r : String)
    (fuel : Nat) (fieldName : Option String)
    (href : s.ref = some r)
    (hlook : lookupSchema schemas (refLast r) = some w)
    (harr : isBareArrayWrapper w = true) :
    (get_java_type_from_openapi (fuel + 1) s schemas [] fieldName =
      Option.map (fun t => "List<" ++ t ++ ">")
        (get_java_type_from_openapi fuel (w.items.getD Schema.emptyNode)
          schemas [refLast r] none))
    ∧ (∀ root fuel2 res,
        get_all_schema_dependencies fuel2 root schemas [] = some res →
        refLast r ∉ res) := by
  constructor
  · have he : s.isEmptyNode = false := by
      simp [Schema.isEmptyNode, href]
    simp [get_java_type_from_openapi, he, href, hlook, harr, insertName]
  · intro root fuel2 res hrun hmem
    rcases deps_nonwrapper fuel2 root schemas [] res hrun (refLast r) hmem with
      hm | ⟨sc', hl', hw'⟩
    · simp at hm
    · rw [hlook] at hl'
      injection hl' with he
      subst he
      rw [harr] at hw'
      exact absurd hw' (by simp)

/-- C7 witness: Scenario 2 — the field ref to `ListWrapper` resolves to
`List<Item>` and `ListWrapper` is absent from the closure of `Container`
(while `Item` is present). -/
theorem C7_witness :
    ((refSchema "#/components/schemas/ListWrapper").ref =
      some "#/components/schemas/ListWrapper")
    ∧ (lookupSchema lwDoc (refLast "#/components/schemas/ListWrapper") =
        some ((lookupSchema lwDoc "ListWrapper").getD Schema.emptyNode))
    ∧ (get_java_type_from_openapi 4 (refSchema "#/components/schemas/ListWrapper")
        lwDoc [] (some "data") = some "List<Item>")
    ∧ (get_all_schema_dependencies 6 "Container" lwDoc [] =
        some ["Item", "Container"])
    ∧ refLast "#/components/schemas/ListWrapper" ∉ (["Item", "Container"] : List String) :=
  ⟨rfl, rfl, by decide, by decide,
    (C7_wrapper_ref_inlined lwDoc (refSchema "#/components/schemas/ListWrapper")
      ((lookupSchema lwDoc "ListWrapper").getD Schema.emptyNode)
      "#/components/schemas/ListWrapper" 3 (some "data") rfl rfl (by decide)).2
      "Container" 6 ["Item", "Container"] (by decide)⟩

/-- C8 counterexample: the class-generation dependency closure does not
recurse into `anyOf` variant refs — `A`, referenced only as an anyOf
variant of `Root.x` and present in the document, is absent from
`closure("Root")`. -/
theorem C8_counterexample :
    get_all_schema_dependencies 5 "Root" anyDoc [] = some ["Root"]
    ∧ lookupSchema anyDoc "A" ≠ none
    ∧ "A" ∉ (["Root"] : List String) := by
  refine ⟨by decide, ?_, by decide⟩
  intro h
  have hsome : lookupSchema anyDoc "A" = some (objSchema [("id", strSchema)]) := rfl
  rw [h] at hsome
  exact absurd hsome (by simp)

/-- C8 (amended): a finished class-generation closure is closed under the
targets the walk actually recurses into — each property's `$ref`,
`allOf`-ref and inline-`allOf`-property refs, `oneOf` variant refs,
array-item ref, and nested inline-object refs (but not `anyOf`, which only
the example generator's walk visits): every target of every recorded name
is itself recorded, or missing from the document, or a bare array wrapper. -/
theorem C8_closure_walk_targets (schemas : Schemas) (root : String) (fuel : Nat)
    (s : List String)
    (h : get_all_schema_dependencies fuel root schemas [] = some s) :
    (∀ y ∈ s, ∀ x ∈ directTargets schemas y, goodName schemas s x)
    ∧ get_schema_dependencies_examples 5 "Root" anyDoc [] = some ["A", "Root"] := by
  constructor
  · intro y hy x hx
    rcases deps_closed fuel root schemas [] s h y hy with hy' | hgood
    · simp at hy'
    · exact hgood x hx
  · decide

/-- C8 witness: in the Pet/Dog closure, every direct target of the recorded
`Dog` — here its base ref `Pet` — is accounted for by the result. -/
theorem C8_witness :
    (get_all_schema_dependencies 6 "Dog" petDoc [] = some ["Pet", "Dog"])
    ∧ ("Dog" ∈ (["Pet", "Dog"] : List String))
    ∧ ("Pet" ∈ directTargets petDoc "Dog")
    ∧ goodName petDoc ["Pet", "Dog"] "Pet" :=
  ⟨by decide, by decide, by decide,
    (C8_closure_walk_targets petDoc "Dog" 6 ["Pet", "Dog"] (by decide)).1
      "Dog" (by decide) "Pet" (by decide)⟩

/-- C9: a `$ref` with no target never aborts — type resolution returns the
opaque `"Object"`, the closure walk returns its visited set unchanged for
the missing name, and a threaded walk simply continues past it. -/
theorem C9_missing_ref_degrades (schemas : Schemas) (s : Schema) (r : String)
    (fuel : Nat) (visited : List String) (fieldName : Option String) (nm : String)
    (href : s.ref = some r)
    (hnotv : refLast r ∉ visited)
    (hmiss : lookupSchema schemas (refLast r) = none)
    (hmiss2 : lookupSchema schemas nm = none) :
    (get_java_type_from_openapi (fuel + 1) s schemas visited fieldName =
      some "Object")
    ∧ (get_all_schema_dependencies (fuel + 1) nm schemas visited = some visited)
    ∧ (∀ rest v,
        threadVisit (fun x w => get_all_schema_dependencies (fuel + 1) x schemas w)
          (nm :: rest) v =
        threadVisit (fun x w => get_all_schema_dependencies (fuel + 1) x schemas w)
          rest v) := by
  have hskip : ∀ v : List String,
      get_all_schema_dependencies (fuel + 1) nm schemas v = some v := by
    intro v
    by_cases hv : nm ∈ v
    · simp [get_all_schema_dependencies, hv]
    · simp [get_all_schema_dependencies, hv, hmiss2]
  refine ⟨?_, hskip visited, ?_⟩
  · have he : s.isEmptyNode = false := by
      simp [Schema.isEmptyNode, href]
    simp [get_java_type_from_openapi, he, href, hnotv, hmiss]
  · intro rest v
    simp only [threadVisit, hskip v]

/-- C9 witness: the `Broken` document — a ref to the missing `Ghost`
resolves to `Object`, and walking `Ghost` leaves the visited set alone. -/
theorem C9_witness :
    ((refSchema "#/components/schemas/Ghost").ref = some "#/components/schemas/Ghost")
    ∧ (lookupSchema missingRefDoc (refLast "#/components/schemas/Ghost") = none)
    ∧ (get_java_type_from_openapi 4 (refSchema "#/components/schemas/Ghost")
        missingRefDoc [] (some "x") = some "Object")
    ∧ (get_all_schema_dependencies 4 "Ghost" missingRefDoc ["Broken"] =
        some ["Broken"]) :=
  ⟨rfl, rfl,
    (C9_missing_ref_degrades missingRefDoc (refSchema "#/components/schemas/Ghost")
      "#/components/schemas/Ghost" 3 [] (some "x") "Ghost"
      rfl (by decide) rfl rfl).1,
    (C9_missing_ref_degrades missingRefDoc (refSchema "#/components/schemas/Ghost")
      "#/components/schemas/Ghost" 3 ["Broken"] (some "x") "Ghost"
      rfl (by decide) rfl rfl).2.1⟩

/-- C10: a generated class has at most one generic parameter — the oneOf
detection returns the first property (in iteration order) carrying a
`oneOf`; any generic parameter text comes from that first field; every
other property — oneOf-bearing or not — is typed by the ordinary
resolution rules, under which a oneOf node resolves to its first variant's
type. -/
theorem C10_single_generic_param (schemas : Schemas) :
    (∀ S p tys, has_oneof_field S schemas = some (p, tys) →
      ∃ ps pre post, get_schema_properties_own S schemas = pre ++ (p, ps) :: post ∧
        ps.oneOf = some tys ∧ ∀ kv ∈ pre, kv.2.oneOf = none)
    ∧ (∀ S g, generic_param_of S schemas = some g →
        ∃ p tys, has_oneof_field S schemas = some (p, tys) ∧
          g = "T" ++ to_java_class_name p ++ " extends " ++ to_java_class_name p)
    ∧ (∀ S q qs fuel,
        (∀ p tys, has_oneof_field S schemas = some (p, tys) → p = "" ∨ q ≠ p) →
        field_java_type fuel S schemas q qs =
          get_java_type_from_openapi fuel qs schemas [] (some q))
    ∧ (∀ (qs o : Schema) (rest : List Schema) (r : String) (fuel : Nat)
        (fn : Option String) (visited : List String),
        qs.ref = none → qs.allOf = none → qs.oneOf = some (o :: rest) →
        o.ref = some r →
        get_java_type_from_openapi (fuel + 1) qs schemas visited fn =
          get_java_type_from_openapi fuel o schemas visited none) := by
  refine ⟨?_, ?_, ?_, ?_⟩
  · intro S p tys h
    unfold has_oneof_field at h
    obtain ⟨pre, kv, post, hsplit, hkv, hpre⟩ := firstSome_split h
    cases ho : kv.2.oneOf with
    | none => rw [ho] at hkv; exact absurd hkv (by simp)
    | some l =>
      rw [ho] at hkv
      dsimp only at hkv
      injection hkv with he
      have hp : kv.1 = p := congrArg Prod.fst he
      have hl : l = tys := by
        have := congrArg Prod.snd he
        simpa using this
      refine ⟨kv.2, pre, post, ?_, by rw [ho, hl], ?_⟩
      · rw [hsplit, ← hp]
      · intro kv' hkv'
        have := hpre kv' hkv'
        cases ho' : kv'.2.oneOf with
        | none => rfl
        | some l' => rw [ho'] at this; exact absurd this (by simp)
  · intro S g h
    unfold generic_param_of at h
    cases hh : has_oneof_field S schemas with
    | none => rw [hh] at h; exact absurd h (by simp)
    | some ft =>
      rw [hh] at h
      dsimp only at h
      by_cases hc : (decide ¬ft.1 = "" && !List.isEmpty ft.2) = true
      · rw [if_pos hc] at h
        injection h with he
        exact ⟨ft.1, ft.2, rfl, he.symm⟩
      · rw [if_neg hc] at h
        exact absurd h (by simp)
  · intro S q qs fuel hnot
    unfold field_java_type
    cases hh : has_oneof_field S schemas with
    | none => rfl
    | some ft =>
      dsimp only
      rcases hnot ft.1 ft.2 (by rw [hh]) with hp | hq
      · simp [hp]
      · simp [hq]
  · intro qs o rest r fuel fn visited h1 h2 h3 hr
    have he : qs.isEmptyNode = false := by
      simp [Schema.isEmptyNode, h3]
    simp [get_java_type_from_openapi, he, h1, h2, h3, hr, Option.isSome]

/-- C10 witness: `Holder` has two oneOf properties; only `first` yields the
generic parameter, while `second` is typed by ordinary resolution — its
first variant's type `B`. -/
theorem C10_witness :
    (has_oneof_field "Holder" twoOneofDoc =
      some ("first", [refSchema "#/components/schemas/A"]))
    ∧ (generic_param_of "Holder" twoOneofDoc = some "TFirst extends First")
    ∧ (field_java_type 4 "Holder" twoOneofDoc "second"
        (.node none none none none none
          (some [refSchema "#/components/schemas/B"]) none none) =
      get_java_type_from_openapi 4
        (.node none none none none none
          (some [refSchema "#/components/schemas/B"]) none none)
        twoOneofDoc [] (some "second"))
    ∧ (get_java_type_from_openapi 4
        (.node none none none none none
          (some [refSchema "#/components/schemas/B"]) none none)
        twoOneofDoc [] (some "second") = some "B") :=
  ⟨rfl, by decide,
    (C10_single_generic_param twoOneofDoc).2.2.1 "Holder" "second"
      (.node none none none none none
        (some [refSchema "#/components/schemas/B"]) none none) 4
      (by
        intro p tys h
        have hv : has_oneof_field "Holder" twoOneofDoc =
            some ("first", [refSchema "#/components/schemas/A"]) := rfl
        rw [hv] at h
        injection h with he
        have hp : "first" = p := congrArg Prod.fst he
        exact Or.inr (by rw [← hp]; decide)),
    by decide⟩
